import Mathlib

/-!
Verification of the sorted-range merge core (`merge.go` of the
timeserieslog repository) against its natural-language specification.

The element domain is `Int` with its numeric order, as the specification
itself suggests for concreteness.  A Go `Element` value that may be `nil`
is embedded as `Option Int`.  The `SortedRange` interface is embedded as
the inductive type `SR` whose constructors are the concrete range shapes
the core manipulates:

* `SR.empty`    — the external `EmptyRange` sentinel (modelled from the
  spec: `Limit = 0`, `First`/`Last` null, `Partition` returns the pair
  `(EmptyRange, EmptyRange)`);
* `SR.leaf xs`  — an external primitive sorted range holding the element
  list `xs` (array-backed ranges, and the result of the external
  overlap-merge primitive, which is opaque to this core);
* `SR.disjoint first last segs` — the `disjointRanges` struct of
  `merge.go`, with its cached `first`/`last` fields and its segment list.

Functions that recurse through the dynamic `SortedRange` dispatch of the
Go code (`Partition`, `merge`) take an explicit `fuel : Nat` so that they
are structurally recursive and kernel-computable; `fuel = 2` is enough
for every well-formed range because well-formed composites contain only
primitive segments (invariant I3).  Go `panic` calls are embedded as
`Except.error` with the panic message.
-/

namespace Tsl

abbrev Element := Int

/-- Order predicate over elements, as in the Go `Order` function type. -/
abbrev Order := Element → Element → Bool

/-- Modelled from the spec: the strictly-before relation (`LessOrder`,
`a.Less(b)` on integer elements). -/
def LessOrder : Order := fun a b => decide (a < b)

/-- Modelled from the spec: the before-or-equal relation
(`LessOrEqualOrder`, `!b.Less(a)` on integer elements). -/
def LessOrEqualOrder : Order := fun a b => !(decide (b < a))

/-- The range shapes handled by the core: the `EmptyRange` sentinel, an
external primitive sorted range over an element list, and the
`disjointRanges` composite of `merge.go` (cached `first`, cached `last`,
segment list). -/
inductive SR where
  | empty : SR
  | leaf (xs : List Int) : SR
  | disjoint (first last : Option Element) (segs : List SR) : SR

/-- Go `First()`: for `disjointRanges` the cached `first` field; for a
primitive range its least element; `nil` (`none`) when empty. -/
def SR.First : SR → Option Element
  | .empty => none
  | .leaf xs => xs.head?
  | .disjoint f _ _ => f

/-- Go `Last()`: for `disjointRanges` the cached `last` field; for a
primitive range its greatest element; `nil` (`none`) when empty. -/
def SR.Last : SR → Option Element
  | .empty => none
  | .leaf xs => xs.getLast?
  | .disjoint _ l _ => l

mutual
/-- Go `Limit()`: `disjointRanges.Limit` sums the segment limits; a
primitive range's limit is its element count; `EmptyRange.Limit() = 0`. -/
def SR.Limit : SR → Nat
  | .empty => 0
  | .leaf xs => xs.length
  | .disjoint _ _ segs => SR.limitList segs

/-- The accumulation loop of `disjointRanges.Limit`. -/
def SR.limitList : List SR → Nat
  | [] => 0
  | r :: rs => SR.Limit r + SR.limitList rs
end

mutual
/-- The element sequence a range produces through its cursor: a
composite concatenates its segments' sequences in order. -/
def SR.elems : SR → List Int
  | .empty => []
  | .leaf xs => xs
  | .disjoint _ _ segs => SR.elemsList segs

/-- Concatenation of the element sequences of a segment list. -/
def SR.elemsList : List SR → List Int
  | [] => []
  | r :: rs => SR.elems r ++ SR.elemsList rs
end

/-- Function `selectFirst` from `merge.go`: the lesser of the two `First()`
bounds, a `nil` bound deferring to the other operand, ties toward `b`. -/
def selectFirst (a b : SR) : Option Element :=
  match SR.First a with
  | none => SR.First b
  | some af =>
    match SR.First b with
    | none => some af
    | some bf => if decide (af < bf) then some af else some bf

/-- Function `selectLast` from `merge.go`: the greater of the two `Last()`
bounds, a `nil` bound deferring to the other operand, ties toward `b`. -/
def selectLast (a b : SR) : Option Element :=
  match SR.Last a with
  | none => SR.Last b
  | some al =>
    match SR.Last b with
    | none => some al
    | some bl => if !(decide (bl < al)) then some bl else some al

/-- Modelled from the spec: the `Partition` of an external primitive
sorted range (not part of `merge.go`): every produced element `x` with
`o x e` goes left, the remainder right, relative order preserved.  On a
sorted list with one of the two order relations this is the
`takeWhile`/`dropWhile` split.  An empty side is a primitive range with
`Limit() = 0`. -/
def leafPartition (xs : List Int) (e : Int) (o : Order) : SR × SR :=
  (.leaf (xs.takeWhile (fun x => o x e)), .leaf (xs.dropWhile (fun x => o x e)))

/-- The segment scan of `disjointRanges.Partition` (`merge.go` lines
46-105).  `partF` is the recursive `Partition` call, `pre` the already
scanned prefix `d.segments[0:i]` of the original list; the Go index
accesses translate as `d.segments[i-1] = pre.getLast?`,
`d.segments[i:] = r :: rest`, `d.segments[i+1:] = rest`.  Go panics
(nil bounds, index out of range) are `Except.error`. -/
def partitionLoop (partF : SR → Int → Order → Except String (SR × SR))
    (df dl : Option Element) (e : Int) (o : Order) :
    List SR → List SR → Except String (SR × SR)
  | pre, [] => .ok (.disjoint df dl pre, .empty)
  | pre, r :: rest =>
    match SR.First r, SR.Last r with
    | none, _ => .error "r.First() is nil!"
    | _, none => .error "r.Last() is nil!"
    | some rf, some rl =>
      if o e rf && !(o rf e) then
        match pre.getLast? with
        | none => .error "index out of range"
        | some prev =>
          .ok (.disjoint df (SR.Last prev) pre, .disjoint (some rf) dl (r :: rest))
      else if o rf e && o e rl then
        match partF r e o with
        | .error msg => .error msg
        | .ok (p1, p2) =>
          if SR.Limit p2 == 0 then
            match SR.Last p1 with
            | none => .error "p1.Last() is nil!"
            | some p1l =>
              match rest with
              | [] => .ok (.disjoint df (some p1l) (pre ++ [p1]), .empty)
              | r2h :: _ =>
                .ok (.disjoint df (some p1l) (pre ++ [p1]),
                     .disjoint (SR.First r2h) dl rest)
          else
            match SR.Last p1, SR.First p2 with
            | none, _ => .error "p1.Last() is nil!"
            | _, none => .error "p2.First() is nil!"
            | some p1l, some p2f =>
              .ok (.disjoint df (some p1l) (pre ++ [p1]),
                   .disjoint (some p2f) dl (p2 :: rest))
      else partitionLoop partF df dl e o (pre ++ [r]) rest

/-- Method `Partition(e, o)` with explicit recursion fuel.  The `disjoint` case
is `disjointRanges.Partition` from `merge.go`: the early
`(EmptyRange, d)` return when `!o(d.first, e)`, then the segment scan.
The `empty` and `leaf` cases are the external implementations, modelled
from the spec.  Calling `o` on a `nil` first bound is a Go nil
dereference, embedded as an error. -/
def SR.Partition : Nat → SR → Int → Order → Except String (SR × SR)
  | 0 => fun _ _ _ => .error "fuel"
  | fuel + 1 => fun r e o =>
    match r with
    | .empty => .ok (.empty, .empty)
    | .leaf xs => .ok (leafPartition xs e o)
    | .disjoint df dl segs =>
      match df with
      | none => .error "nil bound"
      | some f =>
        if !(o f e) then .ok (.empty, .disjoint df dl segs)
        else partitionLoop (SR.Partition fuel) df dl e o [] segs

/-- Function `flatten` from `merge.go`: each top-level `disjointRanges` in the
list is replaced by its own segment list, other entries are kept.  The
Go function distinguishes a leading non-composite from a leading
composite and then loops splicing consecutive composites until the next
non-composite, recursing there; unfolding that loop gives exactly this
per-head recursion. -/
def flatten : List SR → List SR
  | [] => []
  | .disjoint _ _ segs :: rest => segs ++ flatten rest
  | r :: rest => r :: flatten rest

/-- Insertion of one element into an ascending list, keeping it
ascending. -/
def insertAsc (x : Int) : List Int → List Int
  | [] => [x]
  | y :: ys => if decide (x ≤ y) then x :: y :: ys else y :: insertAsc x ys

/-- Ascending union of two element lists, both operands retained. -/
def mergeLists (xs ys : List Int) : List Int := xs.foldr insertAsc ys

/-- Modelled from the spec: the external overlap-merge primitive
`newMergeableRange(first, last, x, y, nil)` (not part of `merge.go`).
It produces a sorted range whose elements are the combined union of the
two operands' elements in ascending order.  For the arguments `merge`
supplies, the given bounds equal the least and greatest combined
elements, so the result is embedded as a primitive range over the merged
element list. -/
def newMergeableRange (_first _last : Option Element) (x y : SR) : SR :=
  .leaf (mergeLists (SR.elems x) (SR.elems y))

/-- Modelled from the spec: substitute `EmptyRange` when the
overlap-merge primitive yields an empty result. -/
def useEmptyRangeIfEmpty (r : SR) : SR :=
  if SR.Limit r == 0 then .empty else r

/-- The surviving-parts filter and final switch of `merge` (`merge.go`
lines 230-252): drop the parts with no elements; zero survivors is the
Go `panic("unexpected")`, a single survivor is returned bare, two or
more survivors are wrapped in a composite over the flattened list. -/
def assembleParts (first last : Option Element) (parts : List SR) : Except String SR :=
  match parts.filter (fun r => 0 < SR.Limit r) with
  | [] => .error "unexpected"
  | [r] => .ok r
  | segs => .ok (.disjoint first last (flatten segs))

/-- Function `merge(a, b)` from `merge.go` with explicit fuel for the `Partition`
calls: the two identity fast paths, the disjoint fast path building the
two-segment composite, and the overlapping case partitioning both
inputs, combining the middle, filtering empty parts and wrapping two or
more survivors in a flattened composite.  The zero-survivor
`panic("unexpected")` is `Except.error "unexpected"`. -/
def merge (fuel : Nat) (a b : SR) : Except String SR :=
  if SR.Limit a == 0 then .ok b
  else if SR.Limit b == 0 then .ok a
  else
    match SR.Last a, SR.First b with
    | none, _ => .error "nil bound"
    | _, none => .error "nil bound"
    | some al, some bf =>
      if decide (al < bf) then
        .ok (.disjoint (SR.First a) (selectLast a b) [a, b])
      else
        let first := selectFirst a b
        let last := selectLast a b
        match SR.Partition fuel a bf LessOrder with
        | .error m => .error m
        | .ok (p1, p2) =>
          match SR.Partition fuel b al LessOrEqualOrder with
          | .error m => .error m
          | .ok (p3, p4) =>
            let m23 : SR :=
              if SR.Limit p2 == 0 then p3
              else if SR.Limit p3 == 0 then p2
              else useEmptyRangeIfEmpty
                (newMergeableRange (selectFirst p2 p3) (selectLast p2 p3) p2 p3)
            assembleParts first last [p1, m23, p4]

/-- Ascending (non-strict) order of an element list. -/
def isSortedAsc : List Int → Bool
  | [] => true
  | [_] => true
  | x :: y :: rest => decide (x ≤ y) && isSortedAsc (y :: rest)

/-- A well-formed segment of a composite: a non-empty, sorted primitive
range (invariant I3 says segments are never composites). -/
def isLeafSeg : SR → Bool
  | .leaf xs => !xs.isEmpty && isSortedAsc xs
  | _ => false

/-- The earlier range's `Last()` is strictly before the later range's
`First()`. -/
def boundLtB (s t : SR) : Bool :=
  match SR.Last s, SR.First t with
  | some a, some b => decide (a < b)
  | _, _ => false

/-- Adjacent-pair disjointness (invariant I1 at the bounds level). -/
def chainLt : List SR → Bool
  | [] => true
  | [_] => true
  | s :: t :: rest => boundLtB s t && chainLt (t :: rest)

/-- Well-formedness of a range: `EmptyRange` is well formed, a primitive
range is non-empty and sorted, and a composite has at least one segment,
only well-formed primitive segments (invariant I3), bounds-disjoint
adjacent segments (invariant I1) and consistent cached bounds
(invariant I2). -/
def SR.wf : SR → Bool
  | .empty => true
  | .leaf xs => !xs.isEmpty && isSortedAsc xs
  | .disjoint df dl segs =>
    !segs.isEmpty && segs.all isLeafSeg && chainLt segs
      && decide (df = segs.head?.bind SR.First)
      && decide (dl = segs.getLast?.bind SR.Last)

/-- Whether a range is a `disjointRanges` composite (the dynamic type
check of `flatten`). -/
def isCompositeB : SR → Bool
  | .disjoint _ _ _ => true
  | _ => false

/-- Invariant I3 at the top level: no direct segment of a composite is
itself a composite. -/
def SR.noNested : SR → Bool
  | .disjoint _ _ segs => segs.all (fun s => !isCompositeB s)
  | _ => true

/-- State of a `disjointCursor` from `merge.go`: index of the current
segment, the open cursor over that segment (a primitive segment's open
cursor is its remaining element list, modelled from the spec; `none` is
the Go `nil` cursor after the last segment), and the segment list. -/
structure DisjointCursor where
  next : Nat
  cursor : Option (List Int)
  segments : List SR

/-- Modelled from the spec: `r.Open()` yields a cursor producing
`r`'s elements in order, so the cursor contents are `r.elems`. -/
def cursorOf (r : SR) : List Int := SR.elems r

/-- Go `disjointCursor.nextCursor`: increment the segment index and open
the next segment's cursor, or `nil` past the last segment. -/
def DisjointCursor.nextCursor (c : DisjointCursor) : DisjointCursor :=
  { c with next := c.next + 1,
           cursor := (c.segments[c.next + 1]?).map cursorOf }

/-- Go `disjointCursor.Next` (`merge.go` lines 125-136): pull from the
current segment cursor, advancing over exhausted segments; `none` once
every segment is exhausted.  The fuel bounds the advance loop, which in
Go runs at most once per remaining segment. -/
def DisjointCursor.Next : Nat → DisjointCursor → Option Int × DisjointCursor
  | 0 => fun c => (none, c)
  | fuel + 1 => fun c =>
    match c.cursor with
    | none => (none, c)
    | some [] => DisjointCursor.Next fuel c.nextCursor
    | some (x :: rest) => (some x, { c with cursor := some rest })

/-- Go `disjointCursor.Fill` (`merge.go` lines 138-149) returning the
written elements instead of mutating a buffer: repeatedly delegate to
the current segment cursor's `Fill` on the remaining space (a primitive
cursor's `Fill` writes as many remaining elements as fit, modelled from
the spec), advancing to the next segment while space remains. -/
def DisjointCursor.Fill : Nat → DisjointCursor → Nat → List Int × DisjointCursor
  | 0 => fun c _ => ([], c)
  | fuel + 1 => fun c max =>
    if max == 0 then ([], c)
    else
      match c.cursor with
      | none => ([], c)
      | some rem =>
        let written := rem.take max
        let c1 : DisjointCursor := { c with cursor := some (rem.drop max) }
        if written.length < max then
          let c2 := c1.nextCursor
          let step := DisjointCursor.Fill fuel c2 (max - written.length)
          (written ++ step.1, step.2)
        else (written, c1)

/-- Go `disjointRanges.Open` (`merge.go` lines 25-31): a fresh cursor at
segment 0 with that segment's cursor open.  The Go code indexes
`d.segments[0]`, a panic on an empty segment list, hence `Option`. -/
def dOpen (segs : List SR) : Option DisjointCursor :=
  (segs[0]?).map (fun s => ⟨0, some (cursorOf s), segs⟩)

/-- The element sequence produced by calling `Next` repeatedly, up to
`k` times, stopping at the first `none`. -/
def nextRun (fuel : Nat) : DisjointCursor → Nat → List Int
  | _, 0 => []
  | c, k + 1 =>
    match DisjointCursor.Next fuel c with
    | (none, _) => []
    | (some x, c1) => x :: nextRun fuel c1 k

/-- The concatenation of the elements written by successive `Fill`
calls with the given buffer sizes. -/
def fillRun (fuel : Nat) : DisjointCursor → List Nat → List Int
  | _, [] => []
  | c, n :: ns =>
    let step := DisjointCursor.Fill fuel c n
    step.1 ++ fillRun fuel step.2 ns

/-- The elements a disjoint cursor has yet to produce: the rest of the
open segment cursor, then the elements of the segments after the
current one. -/
def DisjointCursor.remaining (c : DisjointCursor) : List Int :=
  (c.cursor.getD []) ++ SR.elemsList (c.segments.drop (c.next + 1))

/-- Cursor sanity: the cursor is `nil` exactly past the last segment;
while a segment cursor is open, the index is in range. -/
def DisjointCursor.inv (c : DisjointCursor) : Prop :=
  (c.cursor = none → c.segments.length ≤ c.next) ∧
    (∀ l, c.cursor = some l → c.next < c.segments.length)

/-- The segment scan of `partitionAfterLoop` below, mirroring
`partitionLoop` but computing the observable state of the receiver after
the call.  In the straddle branch the Go expression
`append(d.segments[0:i], p1)` has `cap(d.segments[0:i]) > i`, so it
writes `p1` into the receiver's backing array at index `i`: the
receiver's observable segment list becomes `pre ++ p1 :: rest`.  Every
other branch only reads or re-slices, leaving the receiver unchanged.
`none` embeds the Go panics, after which no state is observable. -/
def partitionAfterLoop (partF : SR → Int → Order → Except String (SR × SR))
    (df dl : Option Element) (e : Int) (o : Order) :
    List SR → List SR → Option SR
  | pre, [] => some (.disjoint df dl pre)
  | pre, r :: rest =>
    match SR.First r, SR.Last r with
    | none, _ => none
    | _, none => none
    | some rf, some rl =>
      if o e rf && !(o rf e) then
        match pre.getLast? with
        | none => none
        | some _ => some (.disjoint df dl (pre ++ r :: rest))
      else if o rf e && o e rl then
        match partF r e o with
        | .error _ => none
        | .ok (p1, p2) =>
          if SR.Limit p2 == 0 then
            match SR.Last p1 with
            | none => none
            | some _ => some (.disjoint df dl (pre ++ p1 :: rest))
          else
            match SR.Last p1, SR.First p2 with
            | none, _ => none
            | _, none => none
            | some _, some _ => some (.disjoint df dl (pre ++ p1 :: rest))
      else partitionAfterLoop partF df dl e o (pre ++ [r]) rest

/-- The observable state of the receiver `r` after `r.Partition(e, o)`
returns, under the Go slice-aliasing semantics of `merge.go` (faithful
for receivers whose segments are primitive ranges, which external
primitive `Partition` implementations do not mutate): unchanged in the
early-return, boundary-match and no-match cases, and with segment `i`
overwritten by the left fragment `p1` in the straddle case.  `none`
embeds a panic. -/
def partitionAfter : Nat → SR → Int → Order → Option SR
  | 0 => fun _ _ _ => none
  | fuel + 1 => fun r e o =>
    match r with
    | .empty => some .empty
    | .leaf xs => some (.leaf xs)
    | .disjoint df dl segs =>
      match df with
      | none => none
      | some f =>
        if !(o f e) then some (.disjoint df dl segs)
        else partitionAfterLoop (SR.Partition fuel) df dl e o [] segs

/-- A segment straddles the pivot: its first element is before the
pivot and the pivot before its last element, under the given order (the
condition of the recursive-split branch of `Partition`). -/
def straddles (e : Int) (o : Order) (s : SR) : Bool :=
  match SR.First s, SR.Last s with
  | some f0, some l0 => o f0 e && o e l0
  | _, _ => false

mutual
/-- No composite anywhere in the range has an empty segment list. -/
def SR.noZero : SR → Bool
  | .empty => true
  | .leaf _ => true
  | .disjoint _ _ segs => !segs.isEmpty && SR.noZeroList segs

/-- Predicate `SR.noZero` over a segment list. -/
def SR.noZeroList : List SR → Bool
  | [] => true
  | r :: rs => SR.noZero r && SR.noZeroList rs
end

/-- Modelled from the spec's words in §4.4: the lesser of the two
`First()` bounds, a null bound deferring to the other operand. -/
def specSelectFirst (a b : SR) : Option Element :=
  match SR.First a, SR.First b with
  | none, x => x
  | some af, none => some af
  | some af, some bf => some (min af bf)

/-- Modelled from the spec's words in §4.4: the greater of the two
`Last()` bounds, a null bound deferring to the other operand. -/
def specSelectLast (a b : SR) : Option Element :=
  match SR.Last a, SR.Last b with
  | none, x => x
  | some al, none => some al
  | some al, some bl => some (max al bl)

/-- Segment lists suitable as a produced composite's segment list: at
least one segment, every segment a non-composite range holding at least
one element. -/
def goodSegs (segs : List SR) : Prop :=
  segs ≠ [] ∧ ∀ s ∈ segs, isCompositeB s = false ∧ SR.Limit s ≠ 0

/-- Ranges the core's `Partition` and `merge` produce as parts: either a
non-composite range, or a composite over a good segment list. -/
def goodPart (r : SR) : Prop :=
  (isCompositeB r = false ∧ SR.noZero r = true) ∨
    ∃ f l segs, r = .disjoint f l segs ∧ goodSegs segs

/-- C10: `selectFirst` returns the lesser of the two `First()` bounds
and `selectLast` the greater of the two `Last()` bounds, each deferring
to the other operand on a null bound (and null when both are null), and
on a tie both return the second operand's bound. -/
theorem c10_select_bounds : ∀ a b : SR,
    selectFirst a b = specSelectFirst a b ∧
    selectLast a b = specSelectLast a b ∧
    (SR.First a = SR.First b → selectFirst a b = SR.First b) ∧
    (SR.Last a = SR.Last b → selectLast a b = SR.Last b) := by
  intro a b
  refine ⟨?_, ?_, ?_, ?_⟩ <;>
    simp only [selectFirst, selectLast, specSelectFirst, specSelectLast]
  · cases SR.First a with
    | none => cases SR.First b <;> rfl
    | some af =>
      cases SR.First b with
      | none => rfl
      | some bf =>
        by_cases h : af < bf
        · simp [h, min_eq_left h.le]
        · simp [h, min_eq_right (not_lt.mp h)]
  · cases SR.Last a with
    | none => cases SR.Last b <;> rfl
    | some al =>
      cases SR.Last b with
      | none => rfl
      | some bl =>
        by_cases h : bl < al
        · simp [h, max_eq_left h.le]
        · simp [h, max_eq_right (not_lt.mp h)]
  · intro h
    rw [h]; cases SR.First b <;> simp
  · intro h
    rw [h]; cases SR.Last b <;> simp

/-- Evaluation of `c10_select_bounds` at concrete ranges. -/
theorem c10_select_bounds_witness :
    selectFirst (.leaf [3]) (.leaf [1, 2]) = some 1 ∧
    selectLast (.leaf [3]) (.leaf [1, 2]) = some 3 ∧
    selectLast (.leaf [1, 3]) (.leaf [2, 3]) = some 3 :=
  ⟨(c10_select_bounds (.leaf [3]) (.leaf [1, 2])).1.trans (by decide),
   (c10_select_bounds (.leaf [3]) (.leaf [1, 2])).2.1.trans (by decide),
   (c10_select_bounds (.leaf [1, 3]) (.leaf [2, 3])).2.2.2 (by decide)⟩

/-- A well-formed segment has a non-zero limit. -/
theorem isLeafSeg_limit {s : SR} (h : isLeafSeg s = true) : SR.Limit s ≠ 0 := by
  cases s with
  | leaf xs =>
    cases xs with
    | nil => simp [isLeafSeg] at h
    | cons x xs => simp [SR.Limit]
  | empty => simp [isLeafSeg] at h
  | disjoint f l segs => simp [isLeafSeg] at h

/-- A well-formed segment is a non-empty sorted primitive range. -/
theorem isLeafSeg_shape {s : SR} (h : isLeafSeg s = true) :
    ∃ x xs, s = .leaf (x :: xs) ∧ isSortedAsc (x :: xs) = true := by
  cases s with
  | leaf xs =>
    cases xs with
    | nil => simp [isLeafSeg] at h
    | cons x xs =>
      simp only [isLeafSeg, List.isEmpty_cons, Bool.not_false, Bool.true_and] at h
      exact ⟨x, xs, rfl, h⟩
  | empty => simp [isLeafSeg] at h
  | disjoint f l segs => simp [isLeafSeg] at h

/-- The only well-formed range with limit zero is `EmptyRange`. -/
theorem wf_limit_zero {r : SR} (hwf : SR.wf r = true) (h0 : SR.Limit r = 0) :
    r = .empty := by
  cases r with
  | empty => rfl
  | leaf xs =>
    cases xs with
    | nil => simp [SR.wf] at hwf
    | cons x xs => simp [SR.Limit] at h0
  | disjoint f l segs =>
    cases segs with
    | nil => simp [SR.wf] at hwf
    | cons s rest =>
      simp only [SR.wf, List.all_cons, Bool.and_eq_true, List.isEmpty_cons,
        Bool.not_false, Bool.true_and] at hwf
      have hs : SR.Limit s ≠ 0 := isLeafSeg_limit hwf.1.1.1.1
      simp only [SR.Limit, SR.limitList] at h0
      omega

/-- C5: `EmptyRange` is a two-sided identity of `merge`: whenever one
well-formed operand has limit 0 the other operand is returned itself,
in either argument position. -/
theorem c5_merge_identity (fuel : Nat) (a r : SR) (ha : SR.wf a = true)
    (hr : SR.wf r = true) (h0 : SR.Limit a = 0) :
    merge fuel a r = .ok r ∧ merge fuel r a = .ok r := by
  have hae : a = .empty := wf_limit_zero ha h0
  subst hae
  constructor
  · simp [merge, SR.Limit]
  · by_cases hL : SR.Limit r = 0
    · have hre : r = .empty := wf_limit_zero hr hL
      subst hre; simp [merge, SR.Limit]
    · simp [merge, hL, SR.Limit]

/-- Evaluation of `c5_merge_identity` at a concrete range. -/
theorem c5_merge_identity_witness :
    merge 0 .empty (.leaf [1, 2]) = .ok (.leaf [1, 2]) ∧
    merge 0 (.leaf [1, 2]) .empty = .ok (.leaf [1, 2]) :=
  c5_merge_identity 0 .empty (.leaf [1, 2]) (by decide) (by decide) (by decide)

/-- C1: the code violates the partition contract.  The well-formed
composite over segments `{1,2}` and `{5,6}`, partitioned at the pivot 5
under the strictly-before order, is returned whole as `left` (the scan
recognises a boundary only when the pivot is strictly below a segment's
first element), yet its elements 5 and 6 do not satisfy
`LessOrder(e, 5)`. -/
theorem c1_partition_boundary_defect :
    SR.wf (.disjoint (some 1) (some 6) [.leaf [1, 2], .leaf [5, 6]]) = true ∧
    SR.Partition 2 (.disjoint (some 1) (some 6) [.leaf [1, 2], .leaf [5, 6]])
        5 LessOrder
      = .ok (.disjoint (some 1) (some 6) [.leaf [1, 2], .leaf [5, 6]], .empty) ∧
    (5 : Int) ∈ SR.elems (.disjoint (some 1) (some 6) [.leaf [1, 2], .leaf [5, 6]]) ∧
    LessOrder 5 5 = false :=
  ⟨by decide, rfl, by decide, rfl⟩

/-- C4: the merge of the well-formed composite `[{1,2},{5,6}]` with the
well-formed primitive range `{5}` is a composite whose adjacent segments
`{5,6}` and `{5}` overlap: element 6 of the earlier segment is not
strictly before element 5 of the later one, violating invariant I1. -/
theorem c4_merge_disjointness_defect :
    SR.wf (.disjoint (some 1) (some 6) [.leaf [1, 2], .leaf [5, 6]]) = true ∧
    SR.wf (.leaf [5]) = true ∧
    merge 2 (.disjoint (some 1) (some 6) [.leaf [1, 2], .leaf [5, 6]]) (.leaf [5])
      = .ok (.disjoint (some 1) (some 6) [.leaf [1, 2], .leaf [5, 6], .leaf [5]]) ∧
    boundLtB (.leaf [5, 6]) (.leaf [5]) = false ∧
    (6 : Int) ∈ SR.elems (.leaf [5, 6]) ∧ (5 : Int) ∈ SR.elems (.leaf [5]) ∧
    ¬((6 : Int) < 5) :=
  ⟨by decide, by decide, rfl, by decide, by decide, by decide, by decide⟩

/-- C7: the same merge result violates invariant I2: its cached `last`
is 6 while its final segment's `Last()` is 5. -/
theorem c7_merge_bounds_defect :
    merge 2 (.disjoint (some 1) (some 6) [.leaf [1, 2], .leaf [5, 6]]) (.leaf [5])
      = .ok (.disjoint (some 1) (some 6) [.leaf [1, 2], .leaf [5, 6], .leaf [5]]) ∧
    SR.Last (.disjoint (some 1) (some 6) [.leaf [1, 2], .leaf [5, 6], .leaf [5]])
      = some 6 ∧
    ([SR.leaf [1, 2], .leaf [5, 6], .leaf [5]].getLast?.bind SR.Last) = some 5 ∧
    (some 6 : Option Element) ≠ some 5 :=
  ⟨rfl, rfl, rfl, by decide⟩

/-- C2 counterexample: partitioning the well-formed published composite
`[{1,2},{5,7}]` at pivot 6 under the strictly-before order overwrites,
through the aliased `append`, the receiver's second segment with the
left fragment `{5}`: the receiver's observable element sequence and
limit change. -/
theorem c2_mutation_counterexample :
    SR.wf (.disjoint (some 1) (some 7) [.leaf [1, 2], .leaf [5, 7]]) = true ∧
    partitionAfter 2 (.disjoint (some 1) (some 7) [.leaf [1, 2], .leaf [5, 7]])
        6 LessOrder
      = some (.disjoint (some 1) (some 7) [.leaf [1, 2], .leaf [5]]) ∧
    SR.elems (.disjoint (some 1) (some 7) [.leaf [1, 2], .leaf [5]])
      ≠ SR.elems (.disjoint (some 1) (some 7) [.leaf [1, 2], .leaf [5, 7]]) ∧
    SR.Limit (.disjoint (some 1) (some 7) [.leaf [1, 2], .leaf [5]])
      ≠ SR.Limit (.disjoint (some 1) (some 7) [.leaf [1, 2], .leaf [5, 7]]) :=
  ⟨by decide, rfl, by decide, by decide⟩

/-- C3 counterexample: the disjoint fast path of `merge` does not
flatten.  Merging the composite produced by `merge {1} {3}` with `{5}`
yields a composite whose first direct segment is itself a composite. -/
theorem c3_nesting_counterexample :
    merge 2 (.leaf [1]) (.leaf [3])
      = .ok (.disjoint (some 1) (some 3) [.leaf [1], .leaf [3]]) ∧
    merge 2 (.disjoint (some 1) (some 3) [.leaf [1], .leaf [3]]) (.leaf [5])
      = .ok (.disjoint (some 1) (some 5)
          [.disjoint (some 1) (some 3) [.leaf [1], .leaf [3]], .leaf [5]]) ∧
    SR.noNested (.disjoint (some 1) (some 5)
          [.disjoint (some 1) (some 3) [.leaf [1], .leaf [3]], .leaf [5]]) = false :=
  ⟨rfl, rfl, by decide⟩

theorem isEmpty_false_iff {α : Type} {l : List α} : l.isEmpty = false ↔ l ≠ [] := by
  cases l <;> simp

theorem noZeroList_iff {segs : List SR} :
    SR.noZeroList segs = true ↔ ∀ s ∈ segs, SR.noZero s = true := by
  induction segs with
  | nil => simp [SR.noZeroList]
  | cons s rest ih => simp [SR.noZeroList, ih]

theorem nonComposite_noZero {s : SR} (h : isCompositeB s = false) :
    SR.noZero s = true := by
  cases s with
  | empty => rfl
  | leaf xs => rfl
  | disjoint f l segs => simp [isCompositeB] at h

theorem isLeafSeg_nonComposite {s : SR} (h : isLeafSeg s = true) :
    isCompositeB s = false := by
  obtain ⟨x, xs, rfl, _⟩ := isLeafSeg_shape h
  rfl

theorem limitList_ne_zero {segs : List SR} (hne : segs ≠ [])
    (h : ∀ s ∈ segs, SR.Limit s ≠ 0) : SR.limitList segs ≠ 0 := by
  cases segs with
  | nil => exact absurd rfl hne
  | cons s rest =>
    have h1 := h s (by simp)
    simp only [SR.limitList]
    omega

theorem goodSegs_limit {f l : Option Element} {segs : List SR}
    (h : goodSegs segs) : SR.Limit (.disjoint f l segs) ≠ 0 := by
  simpa [SR.Limit] using limitList_ne_zero h.1 (fun s hs => (h.2 s hs).2)

theorem goodPart_noNested {r : SR} (h : goodPart r) : SR.noNested r = true := by
  rcases h with ⟨hnc, _⟩ | ⟨f, l, segs, rfl, hgs⟩
  · cases r with
    | empty => rfl
    | leaf xs => rfl
    | disjoint f l segs => simp [isCompositeB] at hnc
  · simp only [SR.noNested, List.all_eq_true]
    intro s hs
    simp [(hgs.2 s hs).1]

theorem goodPart_noZero {r : SR} (h : goodPart r) : SR.noZero r = true := by
  rcases h with ⟨hnc, hz⟩ | ⟨f, l, segs, rfl, hgs⟩
  · exact hz
  · simp only [SR.noZero, Bool.and_eq_true, Bool.not_eq_true', isEmpty_false_iff]
    refine ⟨hgs.1, noZeroList_iff.mpr fun s hs => nonComposite_noZero (hgs.2 s hs).1⟩

theorem getLast?_cons_some (x : Int) : ∀ xs : List Int, ∃ v, (x :: xs).getLast? = some v := by
  intro xs
  induction xs generalizing x with
  | nil => exact ⟨x, rfl⟩
  | cons y ys ih =>
    obtain ⟨v, hv⟩ := ih y
    exact ⟨v, by rw [List.getLast?_cons_cons]; exact hv⟩

theorem segs_getLast_mem {segs : List SR} (hne : segs ≠ []) :
    ∃ sl, segs.getLast? = some sl ∧ sl ∈ segs := by
  induction segs with
  | nil => exact absurd rfl hne
  | cons s rest ih =>
    cases rest with
    | nil => exact ⟨s, rfl, by simp⟩
    | cons t ts =>
      obtain ⟨sl, hsl, hmem⟩ := ih (by simp)
      exact ⟨sl, by rw [List.getLast?_cons_cons]; exact hsl, by simp [hmem]⟩

/-- Unpacking the well-formedness of a composite. -/
theorem wf_disjoint_parts {df dl : Option Element} {segs : List SR}
    (h : SR.wf (.disjoint df dl segs) = true) :
    segs ≠ [] ∧ (∀ s ∈ segs, isLeafSeg s = true) ∧ chainLt segs = true ∧
      df = segs.head?.bind SR.First ∧ dl = segs.getLast?.bind SR.Last := by
  simp only [SR.wf, Bool.and_eq_true, Bool.not_eq_true', isEmpty_false_iff,
    List.all_eq_true, decide_eq_true_eq] at h
  tauto

theorem wf_noZero {r : SR} (h : SR.wf r = true) : SR.noZero r = true := by
  cases r with
  | empty => rfl
  | leaf xs => rfl
  | disjoint df dl segs =>
    obtain ⟨hne, hsegs, -, -, -⟩ := wf_disjoint_parts h
    simp only [SR.noZero, Bool.and_eq_true, Bool.not_eq_true', isEmpty_false_iff]
    exact ⟨hne, noZeroList_iff.mpr
      fun s hs => nonComposite_noZero (isLeafSeg_nonComposite (hsegs s hs))⟩

theorem wf_bounds {r : SR} (hwf : SR.wf r = true) (h0 : SR.Limit r ≠ 0) :
    ∃ f0 l0, SR.First r = some f0 ∧ SR.Last r = some l0 := by
  cases r with
  | empty => exact absurd rfl h0
  | leaf xs =>
    cases xs with
    | nil => simp [SR.wf] at hwf
    | cons x rest =>
      obtain ⟨v, hv⟩ := getLast?_cons_some x rest
      exact ⟨x, v, rfl, hv⟩
  | disjoint df dl segs =>
    obtain ⟨hne, hsegs, -, hdf, hdl⟩ := wf_disjoint_parts hwf
    cases segs with
    | nil => exact absurd rfl hne
    | cons s rest =>
      obtain ⟨x, xs, rfl, -⟩ := isLeafSeg_shape (hsegs s (by simp))
      obtain ⟨sl, hsl, hslm⟩ := @segs_getLast_mem (SR.leaf (x :: xs) :: rest) (by simp)
      obtain ⟨y, ys, hsleq, -⟩ := isLeafSeg_shape (hsegs sl hslm)
      obtain ⟨w, hw⟩ := getLast?_cons_some y ys
      refine ⟨x, w, ?_, ?_⟩
      · simp [SR.First, hdf, SR.Last]
      · simp only [SR.Last, hdl, hsl, hsleq, Option.bind_some]
        exact hw

/-- The shapes of the two parts of a primitive partition whose head
element satisfies the order predicate. -/
theorem leafPartition_parts (x : Int) (xs : List Int) (e : Int) (o : Order)
    (h : o x e = true) :
    (∃ tw, (leafPartition (x :: xs) e o).1 = .leaf (x :: tw)) ∧
      SR.Limit (leafPartition (x :: xs) e o).1 ≠ 0 ∧
      (∃ v, SR.Last (leafPartition (x :: xs) e o).1 = some v) ∧
      isCompositeB (leafPartition (x :: xs) e o).1 = false ∧
      isCompositeB (leafPartition (x :: xs) e o).2 = false ∧
      (SR.Limit (leafPartition (x :: xs) e o).2 ≠ 0 →
        ∃ w, SR.First (leafPartition (x :: xs) e o).2 = some w) := by
  have h1 : (leafPartition (x :: xs) e o).1
      = .leaf (x :: xs.takeWhile (fun y => o y e)) := by
    simp [leafPartition, List.takeWhile_cons, h]
  obtain ⟨v, hv⟩ := getLast?_cons_some x (xs.takeWhile (fun y => o y e))
  refine ⟨⟨_, h1⟩, ?_, ⟨v, ?_⟩, ?_, ?_, ?_⟩
  · rw [h1]; simp [SR.Limit]
  · rw [h1]
    exact hv
  · rw [h1]; rfl
  · simp [leafPartition, isCompositeB]
  · intro hlim
    simp only [leafPartition, SR.Limit, SR.First] at hlim ⊢
    cases hd : (x :: xs).dropWhile (fun x => o x e) with
    | nil => rw [hd] at hlim; simp at hlim
    | cons w ws => exact ⟨w, rfl⟩

/-- Master lemma for the segment scan of `disjointRanges.Partition`:
with a well-formed receiver the scan never errors, its left result is a
composite over the receiver's cached first bound and a good segment
list, and its right result is a good part. -/
theorem partitionLoop_master (fv : Nat) (df dl : Option Element) (e : Int) (o : Order) :
    ∀ rest pre,
      (∀ s ∈ pre, isCompositeB s = false ∧ SR.Limit s ≠ 0) →
      (∀ s ∈ rest, isLeafSeg s = true) →
      (pre = [] → ∃ y ys rs, rest = .leaf (y :: ys) :: rs ∧ o y e = true) →
      ∃ ll lsegs rr, partitionLoop (SR.Partition (fv + 1)) df dl e o pre rest
          = .ok (.disjoint df ll lsegs, rr) ∧ goodSegs lsegs ∧ goodPart rr := by
  intro rest
  induction rest with
  | nil =>
    intro pre hpre _ hhead
    have hne : pre ≠ [] := by
      intro hp
      obtain ⟨y, ys, rs, hcons, -⟩ := hhead hp
      exact List.noConfusion hcons
    exact ⟨dl, pre, .empty, rfl, ⟨hne, hpre⟩, Or.inl ⟨rfl, rfl⟩⟩
  | cons r rest ih =>
    intro pre hpre hrest hhead
    obtain ⟨x, xs, rfl, hsort⟩ := isLeafSeg_shape (hrest r (List.mem_cons_self r rest))
    obtain ⟨v, hv⟩ := getLast?_cons_some x xs
    have hv2 : SR.Last (SR.leaf (x :: xs)) = some v := hv
    have hf2 : SR.First (SR.leaf (x :: xs)) = some x := rfl
    have hrest' : ∀ s ∈ rest, isLeafSeg s = true := fun s hs => hrest s (by simp [hs])
    have hmem : ∀ s ∈ rest, isCompositeB s = false ∧ SR.Limit s ≠ 0 := fun s hs =>
      ⟨isLeafSeg_nonComposite (hrest' s hs), isLeafSeg_limit (hrest' s hs)⟩
    have hhd : isCompositeB (SR.leaf (x :: xs)) = false ∧ SR.Limit (SR.leaf (x :: xs)) ≠ 0 :=
      ⟨rfl, by simp [SR.Limit]⟩
    by_cases hA : (o e x && !(o x e)) = true
    · have hne : pre ≠ [] := by
        intro hp
        obtain ⟨y, ys, rs, hcons, hoy⟩ := hhead hp
        rw [List.cons.injEq, SR.leaf.injEq, List.cons.injEq] at hcons
        obtain ⟨⟨hx, -⟩, -⟩ := hcons
        rw [Bool.and_eq_true] at hA
        rw [hx, hoy] at hA
        simp at hA
      obtain ⟨p, hp, -⟩ := segs_getLast_mem hne
      refine ⟨SR.Last p, pre, .disjoint (some x) dl (SR.leaf (x :: xs) :: rest), ?_,
        ⟨hne, hpre⟩, Or.inr ⟨some x, dl, _, rfl, ⟨by simp, ?_⟩⟩⟩
      · simp only [partitionLoop, hf2, hv2]
        rw [hA]
        simp [hp]
      · intro s hs
        rcases List.mem_cons.mp hs with rfl | hs
        · exact hhd
        · exact hmem s hs
    · have hA' : (o e x && !(o x e)) = false := Bool.not_eq_true _ ▸ hA
      by_cases hB : (o x e && o e v) = true
      · have hx : o x e = true := ((Bool.and_eq_true _ _).mp hB).1
        have hpart : SR.Partition (fv + 1) (.leaf (x :: xs)) e o
            = .ok (leafPartition (x :: xs) e o) := rfl
        obtain ⟨⟨tw, htw⟩, hlim1, ⟨l1, hl1⟩, hnc1, hnc2, hfirst2⟩ :=
          leafPartition_parts x xs e o hx
        have hgood1 : goodSegs (pre ++ [(leafPartition (x :: xs) e o).1]) := by
          refine ⟨by simp, ?_⟩
          intro s hs
          rcases List.mem_append.mp hs with hs | hs
          · exact hpre s hs
          · rcases List.mem_singleton.mp hs with rfl
            exact ⟨hnc1, hlim1⟩
        by_cases h2 : SR.Limit (leafPartition (x :: xs) e o).2 = 0
        · have hb2 : (SR.Limit (leafPartition (x :: xs) e o).2 == 0) = true := by simp [h2]
          cases rest with
          | nil =>
            refine ⟨some l1, pre ++ [(leafPartition (x :: xs) e o).1], .empty, ?_,
              hgood1, Or.inl ⟨rfl, rfl⟩⟩
            simp only [partitionLoop, hf2, hv2]
            rw [hA', hB]
            simp [hpart, hb2, hl1]
          | cons r2 rest2 =>
            refine ⟨some l1, pre ++ [(leafPartition (x :: xs) e o).1],
              .disjoint (SR.First r2) dl (r2 :: rest2), ?_,
              hgood1, Or.inr ⟨SR.First r2, dl, _, rfl, ⟨by simp, ?_⟩⟩⟩
            · simp only [partitionLoop, hf2, hv2]
              rw [hA', hB]
              simp [hpart, hb2, hl1]
            · intro s hs
              exact hmem s hs
        · have hb2 : (SR.Limit (leafPartition (x :: xs) e o).2 == 0) = false := by simp [h2]
          obtain ⟨w, hw⟩ := hfirst2 h2
          refine ⟨some l1, pre ++ [(leafPartition (x :: xs) e o).1],
            .disjoint (some w) dl ((leafPartition (x :: xs) e o).2 :: rest), ?_,
            hgood1, Or.inr ⟨some w, dl, _, rfl, ⟨by simp, ?_⟩⟩⟩
          · simp only [partitionLoop, hf2, hv2]
            rw [hA', hB]
            simp [hpart, hb2, hl1, hw]
          · intro s hs
            rcases List.mem_cons.mp hs with rfl | hs
            · exact ⟨hnc2, h2⟩
            · exact hmem s hs
      · have hB' : (o x e && o e v) = false := Bool.not_eq_true _ ▸ hB
        obtain ⟨ll, lsegs, rr, heq, hgs, hgp⟩ := ih (pre ++ [.leaf (x :: xs)])
          (by
            intro s hs
            rcases List.mem_append.mp hs with hs | hs
            · exact hpre s hs
            · rcases List.mem_singleton.mp hs with rfl
              exact hhd)
          hrest' (by simp)
        refine ⟨ll, lsegs, rr, ?_, hgs, hgp⟩
        simp only [partitionLoop, hf2, hv2]
        rw [hA', hB']
        simpa using heq

/-- Master lemma for `Partition`: on a well-formed range with fuel at
least 2 it returns without error, both results are good parts, and the
left result is non-empty whenever the receiver's first element satisfies
the order predicate against the pivot. -/
theorem partition_master (fuel : Nat) (hfuel : 2 ≤ fuel) {r : SR}
    (hwf : SR.wf r = true) (e : Int) (o : Order) :
    ∃ l rr, SR.Partition fuel r e o = .ok (l, rr) ∧ goodPart l ∧ goodPart rr ∧
      (∀ f0, SR.First r = some f0 → o f0 e = true → SR.Limit l ≠ 0) := by
  obtain ⟨fv, rfl⟩ : ∃ fv, fuel = fv + 2 := ⟨fuel - 2, by omega⟩
  cases r with
  | empty =>
    refine ⟨.empty, .empty, rfl, Or.inl ⟨rfl, rfl⟩, Or.inl ⟨rfl, rfl⟩, ?_⟩
    intro f0 h
    exact absurd h (by simp [SR.First])
  | leaf xs =>
    cases xs with
    | nil => simp [SR.wf] at hwf
    | cons x xs =>
      refine ⟨(leafPartition (x :: xs) e o).1, (leafPartition (x :: xs) e o).2, rfl,
        Or.inl ⟨?_, ?_⟩, Or.inl ⟨?_, ?_⟩, ?_⟩
      · simp [leafPartition, isCompositeB]
      · simp [leafPartition, SR.noZero]
      · simp [leafPartition, isCompositeB]
      · simp [leafPartition, SR.noZero]
      · intro f0 hf0 hoe
        have hx : f0 = x := by
          simp only [SR.First, List.head?_cons, Option.some.injEq] at hf0
          exact hf0.symm
        rw [hx] at hoe
        exact (leafPartition_parts x xs e o hoe).2.1
  | disjoint df dl segs =>
    obtain ⟨hne, hsegs, hchain, hdf, hdl⟩ := wf_disjoint_parts hwf
    cases segs with
    | nil => exact absurd rfl hne
    | cons s0 rest0 =>
      obtain ⟨x, xs, rfl, hsort⟩ := isLeafSeg_shape (hsegs s0 (List.mem_cons_self s0 rest0))
      have hdf2 : df = some x := by simp [hdf, SR.First]
      subst hdf2
      have hP : SR.Partition (fv + 2) (.disjoint (some x) dl (SR.leaf (x :: xs) :: rest0)) e o
          = if (!(o x e)) = true
            then .ok (.empty, .disjoint (some x) dl (SR.leaf (x :: xs) :: rest0))
            else partitionLoop (SR.Partition (fv + 1)) (some x) dl e o []
              (SR.leaf (x :: xs) :: rest0) := rfl
      by_cases hfe : o x e = true
      · obtain ⟨ll, lsegs, rr, heq, hgs, hgp⟩ :=
          partitionLoop_master fv (some x) dl e o (SR.leaf (x :: xs) :: rest0) []
            (by simp) hsegs (fun _ => ⟨x, xs, rest0, rfl, hfe⟩)
        refine ⟨.disjoint (some x) ll lsegs, rr, ?_,
          Or.inr ⟨some x, ll, lsegs, rfl, hgs⟩, hgp, ?_⟩
        · rw [hP]
          simp only [hfe, Bool.not_true, Bool.false_eq_true, if_false]
          exact heq
        · intro f0 hf0 _
          exact goodSegs_limit hgs
      · have hfe2 : o x e = false := Bool.not_eq_true _ ▸ hfe
        refine ⟨.empty, .disjoint (some x) dl (SR.leaf (x :: xs) :: rest0), ?_,
          Or.inl ⟨rfl, rfl⟩, Or.inr ⟨some x, dl, _, rfl, ⟨by simp, ?_⟩⟩, ?_⟩
        · rw [hP]
          simp [hfe2]
        · intro s hs
          exact ⟨isLeafSeg_nonComposite (hsegs s hs), isLeafSeg_limit (hsegs s hs)⟩
        · intro f0 hf0 hoe
          simp only [SR.First, Option.some.injEq] at hf0
          rw [hf0] at hfe2
          rw [hoe] at hfe2
          exact absurd hfe2 (by simp)

theorem insertAsc_length (x : Int) : ∀ l : List Int, (insertAsc x l).length = l.length + 1 := by
  intro l
  induction l with
  | nil => rfl
  | cons y ys ih =>
    by_cases h : x ≤ y
    · simp [insertAsc, h]
    · simp [insertAsc, h, ih]

theorem mergeLists_length (xs ys : List Int) :
    (mergeLists xs ys).length = xs.length + ys.length := by
  induction xs with
  | nil => simp [mergeLists]
  | cons x rest ih =>
    simp only [mergeLists, List.foldr_cons] at ih ⊢
    rw [insertAsc_length, ih]
    simp
    omega

mutual
theorem limit_eq_length : ∀ r : SR, SR.Limit r = (SR.elems r).length
  | .empty => rfl
  | .leaf xs => rfl
  | .disjoint f l segs => by
    simp only [SR.Limit, SR.elems]
    exact limitList_eq_length segs

theorem limitList_eq_length : ∀ segs : List SR, SR.limitList segs = (SR.elemsList segs).length
  | [] => rfl
  | r :: rs => by
    simp only [SR.limitList, SR.elemsList, List.length_append]
    rw [limit_eq_length r, limitList_eq_length rs]
end

theorem flatten_mem {parts : List SR} (hgood : ∀ p ∈ parts, goodPart p) :
    ∀ s ∈ flatten parts, isCompositeB s = false := by
  induction parts with
  | nil => simp [flatten]
  | cons p rest ih =>
    have hrest := fun q hq => hgood q (List.mem_cons_of_mem p hq)
    intro s hs
    cases p with
    | disjoint f l segs =>
      simp only [flatten] at hs
      rcases List.mem_append.mp hs with hs | hs
      · rcases hgood (.disjoint f l segs) (List.mem_cons_self _ _) with ⟨hc, -⟩ |
          ⟨f2, l2, segs2, heq, hgs⟩
        · simp [isCompositeB] at hc
        · rw [SR.disjoint.injEq] at heq
          obtain ⟨-, -, h3⟩ := heq
          exact (hgs.2 s (h3 ▸ hs)).1
      · exact ih hrest s hs
    | empty =>
      simp only [flatten] at hs
      rcases List.mem_cons.mp hs with rfl | hs
      · rfl
      · exact ih hrest s hs
    | leaf xs =>
      simp only [flatten] at hs
      rcases List.mem_cons.mp hs with rfl | hs
      · rfl
      · exact ih hrest s hs

theorem flatten_ne {parts : List SR} (hne : parts ≠ [])
    (hgood : ∀ p ∈ parts, goodPart p) : flatten parts ≠ [] := by
  cases parts with
  | nil => exact absurd rfl hne
  | cons p rest =>
    cases p with
    | disjoint f l segs =>
      rcases hgood (.disjoint f l segs) (List.mem_cons_self _ _) with ⟨hc, -⟩ |
        ⟨f2, l2, segs2, heq, hgs⟩
      · simp [isCompositeB] at hc
      · rw [SR.disjoint.injEq] at heq
        obtain ⟨-, -, h3⟩ := heq
        simp only [flatten]
        intro hzero
        rcases List.append_eq_nil.mp hzero with ⟨h4, -⟩
        exact hgs.1 (h3 ▸ h4)
    | empty => simp [flatten]
    | leaf xs => simp [flatten]

/-- Master lemma for the final assembly of `merge`: if one of the parts
is known non-empty and every part is good, assembly returns a composite
with no empty segment list anywhere and no nested composite. -/
theorem assemble_master (first last : Option Element) (parts : List SR)
    (m23 : SR) (hm : m23 ∈ parts) (hml : SR.Limit m23 ≠ 0)
    (hgood : ∀ p ∈ parts, goodPart p) :
    ∃ m, assembleParts first last parts = .ok m ∧
      SR.noZero m = true ∧ SR.noNested m = true := by
  have hsur : ∀ p ∈ parts.filter (fun r => decide (0 < SR.Limit r)), goodPart p :=
    fun p hp => hgood p (List.mem_of_mem_filter hp)
  have hm23 : m23 ∈ parts.filter (fun r => decide (0 < SR.Limit r)) :=
    List.mem_filter.mpr ⟨hm, by simpa using Nat.pos_of_ne_zero hml⟩
  have hfne : parts.filter (fun r => decide (0 < SR.Limit r)) ≠ [] := by
    intro h
    rw [h] at hm23
    exact List.not_mem_nil m23 hm23
  cases hf : parts.filter (fun r => decide (0 < SR.Limit r)) with
  | nil => exact absurd hf hfne
  | cons s1 tl =>
    rw [hf] at hsur
    cases tl with
    | nil =>
      refine ⟨s1, ?_, goodPart_noZero (hsur s1 (by simp)), goodPart_noNested (hsur s1 (by simp))⟩
      simp only [assembleParts, hf]
    | cons s2 tl2 =>
      have hfgood : ∀ s ∈ flatten (s1 :: s2 :: tl2), isCompositeB s = false :=
        flatten_mem hsur
      refine ⟨.disjoint first last (flatten (s1 :: s2 :: tl2)), ?_, ?_, ?_⟩
      · simp only [assembleParts, hf]
      · simp only [SR.noZero, Bool.and_eq_true, Bool.not_eq_true', isEmpty_false_iff]
        refine ⟨flatten_ne (by simp) hsur, noZeroList_iff.mpr
          fun s hs => nonComposite_noZero (hfgood s hs)⟩
      · simp only [SR.noNested, List.all_eq_true]
        intro s hs
        simp [hfgood s hs]

/-- Master lemma for `merge`: on well-formed inputs with fuel at least
2 it returns without error, the result has no composite with an empty
segment list, and in the overlapping case the result has no nested
composite. -/
theorem merge_master (fuel : Nat) (hfuel : 2 ≤ fuel) {a b : SR}
    (ha : SR.wf a = true) (hb : SR.wf b = true) :
    ∃ m, merge fuel a b = .ok m ∧ SR.noZero m = true ∧
      (SR.Limit a ≠ 0 → SR.Limit b ≠ 0 → boundLtB a b = false →
        SR.noNested m = true) := by
  by_cases hLa : SR.Limit a = 0
  · refine ⟨b, ?_, wf_noZero hb, fun h => absurd hLa h⟩
    simp [merge, hLa]
  by_cases hLb : SR.Limit b = 0
  · refine ⟨a, ?_, wf_noZero ha, fun _ h => absurd hLb h⟩
    simp [merge, hLa, hLb]
  obtain ⟨af, al0, hFa, hLaa⟩ := wf_bounds ha hLa
  obtain ⟨bf, bl0, hFb, hLbb⟩ := wf_bounds hb hLb
  have hba : (SR.Limit a == 0) = false := by simp [hLa]
  have hbb : (SR.Limit b == 0) = false := by simp [hLb]
  by_cases hdisj : al0 < bf
  · refine ⟨.disjoint (SR.First a) (selectLast a b) [a, b], ?_, ?_, ?_⟩
    · simp only [merge, hba, hbb, Bool.false_eq_true, if_false]
      rw [hLaa, hFb]
      simp [hdisj]
    · simp only [SR.noZero, SR.noZeroList, Bool.and_eq_true, Bool.not_eq_true',
        isEmpty_false_iff]
      refine ⟨by simp, ?_⟩
      rw [wf_noZero ha, wf_noZero hb]
      simp
    · intro _ _ hblt
      have hbt : boundLtB a b = true := by simp [boundLtB, hLaa, hFb, hdisj]
      rw [hblt] at hbt
      exact Bool.noConfusion hbt
  · obtain ⟨p1, p2, hP1, hg1, hg2, -⟩ := partition_master fuel hfuel ha bf LessOrder
    obtain ⟨p3, p4, hP3, hg3, hg4, hp3pos⟩ :=
      partition_master fuel hfuel hb al0 LessOrEqualOrder
    have hp3 : SR.Limit p3 ≠ 0 := hp3pos bf hFb (by simp [LessOrEqualOrder, hdisj])
    have hd2 : (decide (al0 < bf)) = false := by simp [hdisj]
    by_cases h2 : SR.Limit p2 = 0
    · have hb2 : (SR.Limit p2 == 0) = true := by simp [h2]
      have hparts : ∀ p ∈ [p1, p3, p4], goodPart p := by
        intro p hp
        simp only [List.mem_cons, List.not_mem_nil, or_false] at hp
        rcases hp with rfl | rfl | rfl
        · exact hg1
        · exact hg3
        · exact hg4
      obtain ⟨m, hmEq, hmz, hmn⟩ := assemble_master (selectFirst a b) (selectLast a b)
        [p1, p3, p4] p3 (by simp) hp3 hparts
      refine ⟨m, ?_, hmz, fun _ _ _ => hmn⟩
      simp only [merge, hba, hbb, Bool.false_eq_true, if_false]
      rw [hLaa, hFb]
      simp only [hd2, Bool.false_eq_true, if_false]
      rw [hP1, hP3]
      simp only [hb2, if_true]
      exact hmEq
    · have hb2 : (SR.Limit p2 == 0) = false := by simp [h2]
      have hb3 : (SR.Limit p3 == 0) = false := by simp [hp3]
      have hlen : SR.Limit
          (newMergeableRange (selectFirst p2 p3) (selectLast p2 p3) p2 p3) ≠ 0 := by
        simp only [newMergeableRange, SR.Limit]
        rw [mergeLists_length]
        have e2 := limit_eq_length p2
        have e3 := limit_eq_length p3
        omega
      have hm23eq : useEmptyRangeIfEmpty
            (newMergeableRange (selectFirst p2 p3) (selectLast p2 p3) p2 p3)
          = newMergeableRange (selectFirst p2 p3) (selectLast p2 p3) p2 p3 := by
        simp [useEmptyRangeIfEmpty, hlen]
      have hparts : ∀ p ∈ [p1, newMergeableRange (selectFirst p2 p3) (selectLast p2 p3) p2 p3, p4],
          goodPart p := by
        intro p hp
        simp only [List.mem_cons, List.not_mem_nil, or_false] at hp
        rcases hp with rfl | rfl | rfl
        · exact hg1
        · exact Or.inl ⟨rfl, rfl⟩
        · exact hg4
      obtain ⟨m, hmEq, hmz, hmn⟩ := assemble_master (selectFirst a b) (selectLast a b)
        [p1, newMergeableRange (selectFirst p2 p3) (selectLast p2 p3) p2 p3, p4]
        (newMergeableRange (selectFirst p2 p3) (selectLast p2 p3) p2 p3)
        (by simp) hlen hparts
      refine ⟨m, ?_, hmz, fun _ _ _ => hmn⟩
      simp only [merge, hba, hbb, Bool.false_eq_true, if_false]
      rw [hLaa, hFb]
      simp only [hd2, Bool.false_eq_true, if_false]
      rw [hP1, hP3]
      simp only [hb2, hb3, Bool.false_eq_true, if_false]
      rw [hm23eq]
      exact hmEq

/-- C8: with well-formed, non-empty, overlapping inputs and enough
fuel, `merge` cannot reach the zero-surviving-parts fatal branch, and
the part `p3 = b.Partition(a.Last(), before-or-equal).left` is
non-empty because `b.First()` is at or before `a.Last()`. -/
theorem c8_no_fatal_zero_parts (fuel : Nat) (a b : SR) (hfuel : 2 ≤ fuel)
    (ha : SR.wf a = true) (hb : SR.wf b = true)
    (_hLa : SR.Limit a ≠ 0) (_hLb : SR.Limit b ≠ 0) (hov : boundLtB a b = false) :
    (∃ m, merge fuel a b = .ok m) ∧ merge fuel a b ≠ .error "unexpected" ∧
      (∀ al bf p3 p4, SR.Last a = some al → SR.First b = some bf →
        SR.Partition fuel b al LessOrEqualOrder = .ok (p3, p4) →
        SR.Limit p3 ≠ 0) := by
  obtain ⟨m, hm, -, -⟩ := merge_master fuel hfuel ha hb
  refine ⟨⟨m, hm⟩, by rw [hm]; exact fun h => Except.noConfusion h, ?_⟩
  intro al bf p3 p4 hal hbf hpart
  have hnlt : ¬(al < bf) := by
    intro hlt
    have hbt : boundLtB a b = true := by simp [boundLtB, hal, hbf, hlt]
    rw [hov] at hbt
    exact Bool.noConfusion hbt
  obtain ⟨l, rr, hP, -, -, hpos⟩ := partition_master fuel hfuel hb al LessOrEqualOrder
  rw [hpart] at hP
  simp only [Except.ok.injEq, Prod.mk.injEq] at hP
  obtain ⟨hpl, -⟩ := hP
  have hl := hpos bf hbf (by simp [LessOrEqualOrder, hnlt])
  rw [hpl]
  exact hl

/-- Evaluation of `c8_no_fatal_zero_parts` at the spec's overlapping
scenario. -/
theorem c8_no_fatal_zero_parts_witness :
    merge 2 (.leaf [1, 3, 5]) (.leaf [2, 4, 6]) ≠ .error "unexpected" :=
  (c8_no_fatal_zero_parts 2 (.leaf [1, 3, 5]) (.leaf [2, 4, 6]) (by decide)
    (by decide) (by decide) (by decide) (by decide) (by decide)).2.1

/-- C9: `Partition` and `merge` never produce a composite with zero
segments on well-formed inputs (and `Partition`'s boundary case never
reaches the `segments[i-1]` access with `i = 0`, since it returns
without error), and `Open` on any composite with a non-empty segment
list finds its first segment. -/
theorem c9_no_zero_segment_composites (fuel : Nat) (hfuel : 2 ≤ fuel) :
    (∀ r e o, SR.wf r = true →
      ∃ l rr, SR.Partition fuel r e o = .ok (l, rr) ∧
        SR.noZero l = true ∧ SR.noZero rr = true) ∧
    (∀ a b, SR.wf a = true → SR.wf b = true →
      ∃ m, merge fuel a b = .ok m ∧ SR.noZero m = true) ∧
    (∀ m f0 l0 segs, SR.noZero m = true → m = .disjoint f0 l0 segs →
      ∃ c, dOpen segs = some c) := by
  refine ⟨?_, ?_, ?_⟩
  · intro r e o hwf
    obtain ⟨l, rr, hP, hgl, hgr, -⟩ := partition_master fuel hfuel hwf e o
    exact ⟨l, rr, hP, goodPart_noZero hgl, goodPart_noZero hgr⟩
  · intro a b ha hb
    obtain ⟨m, hm, hz, -⟩ := merge_master fuel hfuel ha hb
    exact ⟨m, hm, hz⟩
  · intro m f0 l0 segs hz hmeq
    subst hmeq
    simp only [SR.noZero, Bool.and_eq_true, Bool.not_eq_true', isEmpty_false_iff] at hz
    obtain ⟨hne, -⟩ := hz
    cases segs with
    | nil => exact absurd rfl hne
    | cons s rest => exact ⟨⟨0, some (cursorOf s), s :: rest⟩, by simp [dOpen]⟩

/-- Evaluation of `c9_no_zero_segment_composites` at a concrete
composite. -/
theorem c9_no_zero_segment_composites_witness :
    ∃ l rr, SR.Partition 2 (.disjoint (some 1) (some 6) [.leaf [1, 2], .leaf [5, 6]])
        3 LessOrder = .ok (l, rr) ∧ SR.noZero l = true ∧ SR.noZero rr = true :=
  (c9_no_zero_segment_composites 2 (by decide)).1
    (.disjoint (some 1) (some 6) [.leaf [1, 2], .leaf [5, 6]]) 3 LessOrder (by decide)

/-- C3 amended: every composite built by `Partition`, and by `merge`'s
overlapping case, has no composite as a direct segment; the disjoint
fast path of `merge` is excluded, since it reuses its operands as the
two segments without flattening. -/
theorem c3_no_nesting_amended (fuel : Nat) (hfuel : 2 ≤ fuel) :
    (∀ r e o, SR.wf r = true →
      ∃ l rr, SR.Partition fuel r e o = .ok (l, rr) ∧
        SR.noNested l = true ∧ SR.noNested rr = true) ∧
    (∀ a b, SR.wf a = true → SR.wf b = true → SR.Limit a ≠ 0 → SR.Limit b ≠ 0 →
      boundLtB a b = false →
      ∃ m, merge fuel a b = .ok m ∧ SR.noNested m = true) := by
  constructor
  · intro r e o hwf
    obtain ⟨l, rr, hP, hgl, hgr, -⟩ := partition_master fuel hfuel hwf e o
    exact ⟨l, rr, hP, goodPart_noNested hgl, goodPart_noNested hgr⟩
  · intro a b ha hb hLa hLb hov
    obtain ⟨m, hm, -, hn⟩ := merge_master fuel hfuel ha hb
    exact ⟨m, hm, hn hLa hLb hov⟩

/-- Evaluation of `c3_no_nesting_amended` at the spec's overlapping
scenario. -/
theorem c3_no_nesting_amended_witness :
    ∃ m, merge 2 (.leaf [1, 3, 5]) (.leaf [2, 4, 6]) = .ok m ∧
      SR.noNested m = true :=
  (c3_no_nesting_amended 2 (by decide)).2 (.leaf [1, 3, 5]) (.leaf [2, 4, 6])
    (by decide) (by decide) (by decide) (by decide) (by decide)

/-- The scan of `partitionAfterLoop` over non-straddling segments
leaves the receiver's segment list unchanged. -/
theorem partitionAfterLoop_unchanged
    (partF : SR → Int → Order → Except String (SR × SR))
    (df dl : Option Element) (e : Int) (o : Order) :
    ∀ rest pre, pre ≠ [] →
      (∀ s ∈ rest, isLeafSeg s = true) →
      (∀ s ∈ rest, straddles e o s = false) →
      partitionAfterLoop partF df dl e o pre rest
        = some (.disjoint df dl (pre ++ rest)) := by
  intro rest
  induction rest with
  | nil =>
    intro pre hne _ _
    simp [partitionAfterLoop]
  | cons r rest ih =>
    intro pre hne hleaf hstr
    obtain ⟨x, xs, rfl, -⟩ := isLeafSeg_shape (hleaf r (List.mem_cons_self r rest))
    obtain ⟨v, hv⟩ := getLast?_cons_some x xs
    have hv2 : SR.Last (SR.leaf (x :: xs)) = some v := hv
    have hf2 : SR.First (SR.leaf (x :: xs)) = some x := rfl
    have hstr0 : (o x e && o e v) = false := by
      have hs0 := hstr _ (List.mem_cons_self _ _)
      simpa [straddles, hf2, hv2] using hs0
    by_cases hA : (o e x && !(o x e)) = true
    · obtain ⟨p, hp, -⟩ := segs_getLast_mem hne
      simp only [partitionAfterLoop, hf2, hv2]
      rw [hA]
      simp [hp]
    · have hA2 : (o e x && !(o x e)) = false := Bool.not_eq_true _ ▸ hA
      simp only [partitionAfterLoop, hf2, hv2]
      rw [hA2, hstr0]
      simp only [Bool.false_eq_true, if_false]
      rw [ih (pre ++ [SR.leaf (x :: xs)]) (by simp)
        (fun s hs => hleaf s (List.mem_cons_of_mem _ hs))
        (fun s hs => hstr s (List.mem_cons_of_mem _ hs))]
      simp

/-- C2 amended: `Partition` leaves the observable state of its receiver
unchanged in every case except the recursive-split (straddle) branch:
primitive receivers and `EmptyRange` are never mutated, and a
well-formed composite receiver is unchanged whenever no segment
straddles the pivot. -/
theorem c2_immutability_amended (fuel : Nat) (e : Int) (o : Order) :
    (∀ xs, partitionAfter (fuel + 1) (.leaf xs) e o = some (.leaf xs)) ∧
    partitionAfter (fuel + 1) .empty e o = some .empty ∧
    (∀ df dl segs, SR.wf (.disjoint df dl segs) = true →
      (∀ s ∈ segs, straddles e o s = false) →
      partitionAfter (fuel + 1) (.disjoint df dl segs) e o
        = some (.disjoint df dl segs)) := by
  refine ⟨fun xs => rfl, rfl, ?_⟩
  intro df dl segs hwf hstr
  obtain ⟨hne, hsegs, -, hdf, -⟩ := wf_disjoint_parts hwf
  cases segs with
  | nil => exact absurd rfl hne
  | cons s0 rest0 =>
    obtain ⟨x, xs, rfl, -⟩ := isLeafSeg_shape (hsegs s0 (List.mem_cons_self s0 rest0))
    have hdf2 : df = some x := by simp [hdf, SR.First]
    subst hdf2
    have hP : partitionAfter (fuel + 1)
          (.disjoint (some x) dl (SR.leaf (x :: xs) :: rest0)) e o
        = if (!(o x e)) = true
          then some (.disjoint (some x) dl (SR.leaf (x :: xs) :: rest0))
          else partitionAfterLoop (SR.Partition fuel) (some x) dl e o []
            (SR.leaf (x :: xs) :: rest0) := rfl
    rw [hP]
    by_cases hfe : o x e = true
    · simp only [hfe, Bool.not_true, Bool.false_eq_true, if_false]
      obtain ⟨v, hv⟩ := getLast?_cons_some x xs
      have hv2 : SR.Last (SR.leaf (x :: xs)) = some v := hv
      have hf2 : SR.First (SR.leaf (x :: xs)) = some x := rfl
      have hA2 : (o e x && !(o x e)) = false := by simp [hfe]
      have hstr0 : (o x e && o e v) = false := by
        have hs0 := hstr _ (List.mem_cons_self _ _)
        simpa [straddles, hf2, hv2] using hs0
      simp only [partitionAfterLoop, hf2, hv2]
      rw [hA2, hstr0]
      simp only [Bool.false_eq_true, if_false]
      rw [partitionAfterLoop_unchanged (SR.Partition fuel) (some x) dl e o rest0
        ([] ++ [SR.leaf (x :: xs)]) (by simp)
        (fun s hs => hsegs s (List.mem_cons_of_mem _ hs))
        (fun s hs => hstr s (List.mem_cons_of_mem _ hs))]
      simp
    · have hfe2 : o x e = false := Bool.not_eq_true _ ▸ hfe
      simp [hfe2]

/-- Evaluation of `c2_immutability_amended` at a composite partitioned
at a segment boundary. -/
theorem c2_immutability_amended_witness :
    partitionAfter 2 (.disjoint (some 1) (some 3) [.leaf [1], .leaf [3]]) 2 LessOrder
      = some (.disjoint (some 1) (some 3) [.leaf [1], .leaf [3]]) :=
  (c2_immutability_amended 1 2 LessOrder).2.2 (some 1) (some 3)
    [.leaf [1], .leaf [3]] (by decide) (by decide)

theorem nextCursor_spec (c : DisjointCursor) (hlt : c.next < c.segments.length) :
    (c.nextCursor).remaining = SR.elemsList (c.segments.drop (c.next + 1)) ∧
    (c.nextCursor).inv ∧ (c.nextCursor).segments = c.segments ∧
    (c.nextCursor).next = c.next + 1 := by
  by_cases h : c.next + 1 < c.segments.length
  · have hget : c.segments[c.next + 1]? = some c.segments[c.next + 1] :=
      List.getElem?_eq_getElem h
    have hdrop : c.segments.drop (c.next + 1)
        = c.segments[c.next + 1] :: c.segments.drop (c.next + 1 + 1) :=
      List.drop_eq_getElem_cons h
    refine ⟨?_, ⟨?_, ?_⟩, rfl, rfl⟩
    · simp only [DisjointCursor.remaining, DisjointCursor.nextCursor, hget]
      rw [hdrop]
      simp [cursorOf, SR.elemsList]
    · intro hnone
      simp [DisjointCursor.nextCursor, hget] at hnone
    · intro l _
      exact h
  · have hget : c.segments[c.next + 1]? = none := by
      rw [List.getElem?_eq_none]
      omega
    have hd1 : c.segments.drop (c.next + 1) = [] := by
      rw [List.drop_eq_nil_of_le]
      omega
    have hd2 : c.segments.drop (c.next + 1 + 1) = [] := by
      rw [List.drop_eq_nil_of_le]
      omega
    refine ⟨?_, ⟨?_, ?_⟩, rfl, rfl⟩
    · simp only [DisjointCursor.remaining, DisjointCursor.nextCursor, hget]
      rw [hd1, hd2]
      simp [SR.elemsList]
    · intro _
      simp only [DisjointCursor.nextCursor]
      omega
    · intro l hl
      simp [DisjointCursor.nextCursor, hget] at hl

theorem dcNext_spec : ∀ (fuel : Nat) (c : DisjointCursor), c.inv →
    c.segments.length + 1 ≤ fuel + c.next →
    (DisjointCursor.Next fuel c).1 = c.remaining.head? ∧
    (DisjointCursor.Next fuel c).2.remaining = c.remaining.tail ∧
    (DisjointCursor.Next fuel c).2.inv ∧
    (DisjointCursor.Next fuel c).2.segments = c.segments ∧
    c.next ≤ (DisjointCursor.Next fuel c).2.next := by
  intro fuel
  induction fuel with
  | zero =>
    intro c hinv hf
    have hnone : c.cursor = none := by
      cases hc : c.cursor with
      | none => rfl
      | some l => exact absurd (hinv.2 l hc) (by omega)
    have hrem : c.remaining = [] := by
      simp only [DisjointCursor.remaining, hnone, Option.getD_none, List.nil_append]
      rw [List.drop_eq_nil_of_le]
      · rfl
      · omega
    have hN : DisjointCursor.Next 0 c = (none, c) := rfl
    rw [hN, hrem]
    exact ⟨rfl, rfl, hinv, rfl, le_refl _⟩
  | succ f ih =>
    intro c hinv hf
    cases hc : c.cursor with
    | none =>
      have hrem : c.remaining = [] := by
        simp only [DisjointCursor.remaining, hc, Option.getD_none, List.nil_append]
        rw [List.drop_eq_nil_of_le]
        · rfl
        · have := hinv.1 hc
          omega
      have hN : DisjointCursor.Next (f + 1) c = (none, c) := by
        simp [DisjointCursor.Next, hc]
      rw [hN, hrem]
      exact ⟨rfl, rfl, hinv, rfl, le_refl _⟩
    | some l =>
      have hlt : c.next < c.segments.length := hinv.2 l hc
      cases l with
      | nil =>
        obtain ⟨hrem2, hinv2, hseg2, hnext2⟩ := nextCursor_spec c hlt
        have hrem : c.remaining = (c.nextCursor).remaining := by
          rw [hrem2]
          simp only [DisjointCursor.remaining, hc, Option.getD_some, List.nil_append]
        obtain ⟨g1, g2, g3, g4, g5⟩ := ih c.nextCursor hinv2 (by rw [hseg2, hnext2]; omega)
        have hN : DisjointCursor.Next (f + 1) c
            = DisjointCursor.Next f c.nextCursor := by
          simp [DisjointCursor.Next, hc]
        rw [hN, hrem]
        refine ⟨g1, g2, g3, by rw [g4, hseg2], ?_⟩
        rw [hnext2] at g5
        omega
      | cons x rest =>
        have hrem : c.remaining
            = x :: (rest ++ SR.elemsList (c.segments.drop (c.next + 1))) := by
          simp [DisjointCursor.remaining, hc]
        have hN : DisjointCursor.Next (f + 1) c
            = (some x, { c with cursor := some rest }) := by
          simp [DisjointCursor.Next, hc]
        rw [hN, hrem]
        refine ⟨rfl, ?_, ⟨?_, ?_⟩, rfl, le_refl _⟩
        · simp [DisjointCursor.remaining]
        · intro hn
          exact Option.noConfusion hn
        · intro l2 _
          exact hlt

theorem dcFill_spec : ∀ (fuel : Nat) (c : DisjointCursor) (max : Nat), c.inv →
    c.segments.length + 1 ≤ fuel + c.next →
    (DisjointCursor.Fill fuel c max).1 = c.remaining.take max ∧
    (DisjointCursor.Fill fuel c max).2.remaining = c.remaining.drop max ∧
    (DisjointCursor.Fill fuel c max).2.inv ∧
    (DisjointCursor.Fill fuel c max).2.segments = c.segments ∧
    c.next ≤ (DisjointCursor.Fill fuel c max).2.next := by
  intro fuel
  induction fuel with
  | zero =>
    intro c max hinv hf
    have hnone : c.cursor = none := by
      cases hc : c.cursor with
      | none => rfl
      | some l => exact absurd (hinv.2 l hc) (by omega)
    have hrem : c.remaining = [] := by
      simp only [DisjointCursor.remaining, hnone, Option.getD_none, List.nil_append]
      rw [List.drop_eq_nil_of_le]
      · rfl
      · omega
    have hN : DisjointCursor.Fill 0 c max = ([], c) := rfl
    rw [hN, hrem]
    exact ⟨by simp, by simp, hinv, rfl, le_refl _⟩
  | succ f ih =>
    intro c max hinv hf
    by_cases hm : max = 0
    · subst hm
      have hN : DisjointCursor.Fill (f + 1) c 0 = ([], c) := by
        simp [DisjointCursor.Fill]
      rw [hN]
      exact ⟨by simp, by simp, hinv, rfl, le_refl _⟩
    have hmb : (max == 0) = false := by simp [hm]
    cases hc : c.cursor with
    | none =>
      have hrem : c.remaining = [] := by
        simp only [DisjointCursor.remaining, hc, Option.getD_none, List.nil_append]
        rw [List.drop_eq_nil_of_le]
        · rfl
        · have := hinv.1 hc
          omega
      have hN : DisjointCursor.Fill (f + 1) c max = ([], c) := by
        simp [DisjointCursor.Fill, hmb, hc]
      rw [hN, hrem]
      exact ⟨by simp, by simp, hinv, rfl, le_refl _⟩
    | some rem =>
      have hlt : c.next < c.segments.length := hinv.2 rem hc
      have hrem : c.remaining
          = rem ++ SR.elemsList (c.segments.drop (c.next + 1)) := by
        simp [DisjointCursor.remaining, hc]
      by_cases hlen : (rem.take max).length < max
      · have hrlt : rem.length < max := by
          rw [List.length_take] at hlen
          omega
        have htake : rem.take max = rem := List.take_of_length_le (by omega)
        obtain ⟨a1, a2, a3, a4⟩ := nextCursor_spec
          ({ c with cursor := some (rem.drop max) } : DisjointCursor) hlt
        obtain ⟨g1, g2, g3, g4, g5⟩ := ih
          ({ c with cursor := some (rem.drop max) } : DisjointCursor).nextCursor
          (max - (rem.take max).length) a2
          (by rw [a3, a4]; show c.segments.length + 1 ≤ f + (c.next + 1); omega)
        have hEq : DisjointCursor.Fill (f + 1) c max
            = ((rem.take max) ++ (DisjointCursor.Fill f
                ({ c with cursor := some (rem.drop max) } : DisjointCursor).nextCursor
                (max - (rem.take max).length)).1,
              (DisjointCursor.Fill f
                ({ c with cursor := some (rem.drop max) } : DisjointCursor).nextCursor
                (max - (rem.take max).length)).2) := by
          simp only [DisjointCursor.Fill, hmb, Bool.false_eq_true, if_false, hc]
          rw [if_pos hlen]
        rw [htake] at g1 g2 g3 g4 g5 hEq
        rw [hEq]
        refine ⟨?_, ?_, g3, by rw [g4, a3], ?_⟩
        · rw [g1, a1, hrem, List.take_append_eq_append_take]
          simp [htake]
        · rw [g2, a1, hrem, List.drop_append_eq_append_drop]
          rw [List.drop_eq_nil_of_le (show rem.length ≤ max from by omega),
            List.nil_append]
        · rw [a4] at g5
          exact Nat.le_of_succ_le g5
      · have hrge : max ≤ rem.length := by
          rw [List.length_take] at hlen
          omega
        have hEq : DisjointCursor.Fill (f + 1) c max
            = (rem.take max, { c with cursor := some (rem.drop max) }) := by
          simp only [DisjointCursor.Fill, hmb, Bool.false_eq_true, if_false, hc]
          rw [if_neg hlen]
        rw [hEq]
        refine ⟨?_, ?_, ⟨?_, ?_⟩, rfl, le_refl _⟩
        · rw [hrem, List.take_append_of_le_length hrge]
        · rw [hrem]
          simp only [DisjointCursor.remaining, Option.getD_some]
          rw [List.drop_append_of_le_length hrge]
        · intro hn
          exact Option.noConfusion hn
        · intro l2 _
          exact hlt

theorem nextRun_spec (fuel : Nat) : ∀ (k : Nat) (c : DisjointCursor), c.inv →
    c.segments.length + 1 ≤ fuel + c.next →
    nextRun fuel c k = c.remaining.take k := by
  intro k
  induction k with
  | zero => intro c _ _; rfl
  | succ k ih =>
    intro c hinv hf
    obtain ⟨h1, h2, h3, h4, h5⟩ := dcNext_spec fuel c hinv hf
    cases hN : DisjointCursor.Next fuel c with
    | mk o1 c1 =>
      rw [hN] at h1 h2 h3 h4 h5
      dsimp only at h1 h2 h3 h4 h5
      cases o1 with
      | none =>
        have hemp : c.remaining = [] := List.head?_eq_none_iff.mp h1.symm
        have hstep : nextRun fuel c (k + 1) = [] := by
          simp only [nextRun]
          rw [hN]
        rw [hstep, hemp]
        rfl
      | some x =>
        have hstep : nextRun fuel c (k + 1) = x :: nextRun fuel c1 k := by
          simp only [nextRun]
          rw [hN]
        cases hr : c.remaining with
        | nil =>
          rw [hr] at h1
          exact Option.noConfusion h1
        | cons y t =>
          rw [hr] at h1 h2
          simp only [List.head?_cons, Option.some.injEq] at h1
          subst h1
          rw [hstep, ih c1 h3 (by rw [h4]; omega), h2]
          rfl

theorem fillRun_spec (fuel : Nat) : ∀ (ns : List Nat) (c : DisjointCursor), c.inv →
    c.segments.length + 1 ≤ fuel + c.next →
    fillRun fuel c ns = c.remaining.take ns.sum := by
  intro ns
  induction ns with
  | nil => intro c _ _; simp [fillRun]
  | cons n ns ih =>
    intro c hinv hf
    obtain ⟨h1, h2, h3, h4, h5⟩ := dcFill_spec fuel c n hinv hf
    simp only [fillRun]
    rw [h1, ih _ h3 (by rw [h4]; omega), h2]
    rw [List.sum_cons, List.take_add]

theorem open_spec {s0 : SR} {rest : List SR} {c : DisjointCursor}
    (h : dOpen (s0 :: rest) = some c) :
    c.remaining = SR.elemsList (s0 :: rest) ∧ c.inv ∧
      c.segments = s0 :: rest ∧ c.next = 0 := by
  simp only [dOpen, List.getElem?_cons_zero, Option.map_some', Option.some.injEq] at h
  subst h
  refine ⟨?_, ⟨?_, ?_⟩, rfl, rfl⟩
  · simp [DisjointCursor.remaining, cursorOf, SR.elemsList]
  · intro hn
    exact Option.noConfusion hn
  · intro l _
    simp

/-- C6: for a well-formed composite, the element sequence produced by
repeated `Next` calls equals the sequence produced by repeated `Fill`
calls under any buffer size schedule covering the composite's limit,
and both equal the composite's element sequence; a `Fill` on an
exhausted cursor writes nothing. -/
theorem c6_cursor_fill_equal (f0 l0 : Option Element) (segs : List SR)
    (c : DisjointCursor) (fuel : Nat)
    (hwf : SR.wf (.disjoint f0 l0 segs) = true)
    (hopen : dOpen segs = some c)
    (hfuel : segs.length + 1 ≤ fuel) :
    (∀ k, SR.Limit (.disjoint f0 l0 segs) ≤ k →
      nextRun fuel c k = SR.elems (.disjoint f0 l0 segs)) ∧
    (∀ sizes : List Nat, SR.Limit (.disjoint f0 l0 segs) ≤ sizes.sum →
      fillRun fuel c sizes = SR.elems (.disjoint f0 l0 segs)) ∧
    (∀ k sizes, SR.Limit (.disjoint f0 l0 segs) ≤ k →
      SR.Limit (.disjoint f0 l0 segs) ≤ sizes.sum →
      nextRun fuel c k = fillRun fuel c sizes) ∧
    (∀ (d : DisjointCursor) (n : Nat), d.inv → d.segments = segs →
      d.remaining = [] → (DisjointCursor.Fill fuel d n).1 = []) := by
  obtain ⟨hne, -, -, -, -⟩ := wf_disjoint_parts hwf
  cases segs with
  | nil => exact absurd rfl hne
  | cons s0 rest =>
    obtain ⟨hrem, hinv, hseg, hnext⟩ := open_spec hopen
    have hbound : c.segments.length + 1 ≤ fuel + c.next := by
      rw [hseg, hnext]
      simpa using hfuel
    have hlim : SR.Limit (.disjoint f0 l0 (s0 :: rest))
        = (SR.elemsList (s0 :: rest)).length := limit_eq_length _
    have helems : SR.elems (.disjoint f0 l0 (s0 :: rest))
        = SR.elemsList (s0 :: rest) := rfl
    have hN : ∀ k, SR.Limit (.disjoint f0 l0 (s0 :: rest)) ≤ k →
        nextRun fuel c k = SR.elems (.disjoint f0 l0 (s0 :: rest)) := by
      intro k hk
      rw [nextRun_spec fuel k c hinv hbound, hrem, helems]
      rw [hlim] at hk
      exact List.take_of_length_le hk
    have hF : ∀ sizes : List Nat, SR.Limit (.disjoint f0 l0 (s0 :: rest)) ≤ sizes.sum →
        fillRun fuel c sizes = SR.elems (.disjoint f0 l0 (s0 :: rest)) := by
      intro sizes hs
      rw [fillRun_spec fuel sizes c hinv hbound, hrem, helems]
      rw [hlim] at hs
      exact List.take_of_length_le hs
    refine ⟨hN, hF, fun k sizes hk hs => (hN k hk).trans (hF sizes hs).symm, ?_⟩
    intro d n hdc hdseg hdrem
    have hdb : d.segments.length + 1 ≤ fuel + d.next := by
      rw [hdseg]
      have := Nat.le_add_right fuel d.next
      simpa using Nat.le_trans hfuel this
    rw [(dcFill_spec fuel d n hdc hdb).1, hdrem]
    simp

/-- Evaluation of `c6_cursor_fill_equal` at the spec's fill-across-
boundary scenario. -/
theorem c6_cursor_fill_equal_witness :
    nextRun 3 ⟨0, some [1, 2], [.leaf [1, 2], .leaf [3, 4]]⟩ 4 = [1, 2, 3, 4] ∧
    fillRun 3 ⟨0, some [1, 2], [.leaf [1, 2], .leaf [3, 4]]⟩ [3, 3] = [1, 2, 3, 4] := by
  have h := c6_cursor_fill_equal (some 1) (some 4) [.leaf [1, 2], .leaf [3, 4]]
    ⟨0, some [1, 2], [.leaf [1, 2], .leaf [3, 4]]⟩ 3 (by decide)
    (by simp [dOpen, cursorOf, SR.elems]) (by simp)
  exact ⟨h.1 4 (by decide), h.2.1 [3, 3] (by decide)⟩

end Tsl
